import Mathlib

/-!
Shallow embedding of the module-linking and symbol-resolution core of the
hhat_lang repository (`src/python/src/hhat_lang/core/code/`): the perfect-hash
function (PHF) algorithm (`utils.py`), the symbol and reference tables
(`symbol_table.py`, `abstract.py`) and the IR graph (`ir_graph.py`).

Python unbounded non-negative integers are modelled as `Nat` (`^^^`, `>>>`,
`%` agree with Python `^`, `>>`, `%` on non-negative operands).  Python's
insertion-ordered dictionaries are modelled as association lists.  Python
methods that may raise are modelled as functions returning the resulting
state together with an `Option String` error (mutations already performed
before the raise are kept, as in Python), or as `Except`/`Option` results
when no mutation is involved.
-/

namespace HhatCore

/-- Names (`Symbol` in `core/data/core.py`); a composite symbol is likewise a
hashable name and is not distinguished here. -/
abbrev Symbol := String

/-- Filesystem path of a module (`pathlib.Path`), compared by equality. -/
abbrev ModPath := String

/-- Models Python's opaque `hash(Path)`: some fixed deterministic function from
paths to integers.  Nothing below depends on its concrete choice. -/
def pathHash (p : ModPath) : Nat :=
  (List.map Char.toNat (String.toList p)).foldl (fun h c => h * 131 + c + 1) 7

/-- Opaque payload of a type definition (`TypeDef`). -/
structure TypeDef where
  payload : Nat
deriving DecidableEq, Repr

/-- Opaque payload of a function definition (`FnDef` / `BuiltinFnDef`). -/
structure FnDef where
  payload : Nat
deriving DecidableEq, Repr

/-- Opaque payload of a modifier definition (`ModifierDef`). -/
structure ModifierDef where
  payload : Nat
deriving DecidableEq, Repr

/-- Function overload signature (`FnHeader` in `core/code/base.py`): the
function name together with the ordered tuple of argument types.  Python
compares headers by `hash((hash(name), hash(args_types)))`; here equality is
structural on the same data. -/
structure FnHeader where
  name : Symbol
  args_types : List Symbol
deriving DecidableEq, Repr

/-- Data definition (`DataDef` in `core/data/var_def.py`): only the fields
consulted by `ConstTable.add` are modelled — its name and whether the value
self-reports as constant (`item.is_constant`). -/
structure DataDef where
  name : Symbol
  is_constant : Bool
deriving DecidableEq, Repr

/-! ### Association-list model of Python `dict` / `OrderedDict` -/

/-- First value stored under key `k` (Python `d.get(k)` / `k in d`). -/
def lookupKey {κ α : Type} [DecidableEq κ] : List (κ × α) → κ → Option α
  | [], _ => none
  | kv :: rest, k => if kv.1 = k then some kv.2 else lookupKey rest k

/-- Python `d[k] = v`: replace the value of an existing key in place (keeping
its position), otherwise append the new binding at the end. -/
def dictInsert {κ α : Type} [DecidableEq κ] (d : List (κ × α)) (k : κ) (v : α) :
    List (κ × α) :=
  if (lookupKey d k).isSome then
    d.map (fun kv => if kv.1 = k then (kv.1, v) else kv)
  else
    d ++ [(k, v)]

/-! ### Symbol tables (`core/code/symbol_table.py`) -/

/-- Insertion-ordered type table (`TypeTable._table`). -/
abbrev TypeTable := List (Symbol × TypeDef)

/-- Models `TypeTable.add` (symbol_table.py lines 71–80): the `isinstance`
guards hold by typing here; an already-present name is left untouched,
otherwise the binding is appended at the end of the insertion order. -/
def TypeTable.add (t : TypeTable) (name : Symbol) (data : TypeDef) : TypeTable :=
  if (lookupKey t name).isSome then t else t ++ [(name, data)]

/-- Models `TypeTable.__contains__`. -/
def TypeTable.hasKey (t : TypeTable) (name : Symbol) : Bool :=
  (lookupKey t name).isSome

/-- Insertion-ordered function table (`FnTable._table`): name to
insertion-ordered overload dictionary (header to definition). -/
abbrev FnTable := List (Symbol × List (FnHeader × FnDef))

/-- Models `FnTable.add` (symbol_table.py lines 139–159) for an `FnHeader`
entry: update the inner overload dictionary of an existing name (Python
`dict.update`, i.e. replace in place or append), otherwise append a fresh
singleton dictionary for the name. -/
def FnTable.add (t : FnTable) (h : FnHeader) (d : FnDef) : FnTable :=
  if (lookupKey t h.name).isSome then
    t.map (fun kv => if kv.1 = h.name then (kv.1, dictInsert kv.2 h d) else kv)
  else
    t ++ [(h.name, [(h, d)])]

/-- Models `FnTable.get` on a bare `Symbol` (symbol_table.py lines 161–168):
`self.table.get(fn_entry, None)` — the whole overload dictionary, or `none`. -/
def FnTable.getSym (t : FnTable) (name : Symbol) : Option (List (FnHeader × FnDef)) :=
  lookupKey t name

/-- Models `FnTable.__contains__` on a bare `Symbol`: `item in self._table`. -/
def FnTable.hasName (t : FnTable) (name : Symbol) : Bool :=
  (lookupKey t name).isSome

/-- Insertion-ordered constant table (`ConstTable._table`). -/
abbrev ConstTable := List (Symbol × DataDef)

/-- Result of `ConstTable.add`: the table state after the call together with
the raised error, if any (in Python the mutation survives the raise because
the table is updated in place before the `raise` statement runs). -/
structure ConstAddResult where
  table : ConstTable
  error : Option String
deriving DecidableEq, Repr

/-- Models `ConstTable.add` (symbol_table.py lines 232–238), faithfully to the
source: when the value self-reports as constant it is stored
(`self._table[item.name] = item`), and then — the `raise` statement is not in
an `else` branch — a `ValueError` is raised unconditionally, whether or not
the value was constant and stored. -/
def ConstTable.add (t : ConstTable) (item : DataDef) : ConstAddResult :=
  let t' := if item.is_constant then dictInsert t item.name item else t
  { table := t',
    error := some "data must be constant to be added to ConstTable" }

/-- Per-module symbol table (`SymbolTable` in symbol_table.py): five
insertion-ordered sub-tables.  MetaMod and Modifier tables are structurally
identical to `FnTable`. -/
structure SymbolTable where
  type : TypeTable
  fn : FnTable
  const : ConstTable
  metamod : List (Symbol × List (FnHeader × FnDef))
  modifier : List (Symbol × List (FnHeader × ModifierDef))
deriving DecidableEq, Repr

/-! ### Perfect hash function (PHF) section (`core/code/utils.py`) -/

/-- Models `get_phf_prime` (utils.py lines 26–52): a prime for the PHF
algorithm, chosen by the size class of the tuple length. -/
def get_phf_prime (tuple_len : Nat) : Nat :=
  if tuple_len ≤ 2 ^ 5 then 37
  else if tuple_len ≤ 2 ^ 6 then 67
  else if tuple_len ≤ 2 ^ 8 then 257
  else if tuple_len ≤ 2 ^ 12 then 4099
  else if tuple_len ≤ 2 ^ 14 then 16411
  else 1048583

/-- Models `PHF_A_LIMIT` (utils.py line 55). -/
def PHF_A_LIMIT : Nat := 1000000

/-- Models `PHF_R_LIMIT` (utils.py line 59): `127 if sys.maxsize > 2**64 else
61`; on a standard 64-bit CPython `sys.maxsize = 2**63 - 1`, so the value is
61. -/
def PHF_R_LIMIT : Nat := 61

/-- Models `ResultPHF` (utils.py lines 63–95): the found PHF parameters. -/
structure ResultPHF where
  a : Nat
  r : Nat
  prime : Nat
  n : Nat
deriving DecidableEq, Repr

/-- Models `get_hash_with_args` (utils.py lines 98–105):
`h = ((value*a) XOR ((value*a) >> r)) % prime % n`. -/
def get_hash_with_args (value a r n prime : Nat) : Nat :=
  let p := value * a
  ((p ^^^ (p >>> r)) % prime) % n

/-- Models `get_hash` (utils.py lines 180–184): same formula as
`get_hash_with_args`, with the parameters read off a `ResultPHF`. -/
def get_hash (value : Nat) (phf : ResultPHF) : Nat :=
  let p := value * phf.a
  ((p ^^^ (p >>> phf.r)) % phf.prime) % phf.n

/-! ### Identity, reference tables, modules, nodes
(`core/code/abstract.py`, `core/code/ir_graph.py`) -/

/-- Models `IRHash` (abstract.py lines 12–64): a key (the module path) plus a
uid (`hash(path)`).  `IRHash.__hash__` returns the stored `_uid` field, and
`IRHash.__eq__` on two `IRHash` compares the hashes, i.e. the uids. -/
structure IRHash where
  key : ModPath
  uid : Nat
deriving DecidableEq, Repr

/-- Models `IRHash.__init__`: the uid is computed as `hash(ir_path)`. -/
def IRHash.ofPath (p : ModPath) : IRHash :=
  { key := p, uid := pathHash p }

/-- Models `RefTable` (abstract.py lines 244–275): the type-reference table
(`RefTypeTable`, symbol to defining-unit identity) and the function-reference
table (`RefFnTable`, overload signature to defining-unit identity).  Only the
iteration used by `IRGraph._check_refs` is needed, so each is kept as its
insertion-ordered list of pairs. -/
structure RefTable where
  types : List (Symbol × IRHash)
  fns : List (FnHeader × IRHash)
deriving DecidableEq, Repr

/-- Models `BaseIRModule` (abstract.py lines 72–111): path plus symbol table
(the optional main block is irrelevant to every claim and omitted). -/
structure IRModule where
  path : ModPath
  symbol_table : SymbolTable
deriving DecidableEq, Repr

/-- Models `BaseIRModule.__contains__`:
`item in self._symbol_table.type or item in self._symbol_table.fn`,
for a `Symbol` item. -/
def IRModule.containsSym (m : IRModule) (item : Symbol) : Bool :=
  m.symbol_table.type.hasKey item || m.symbol_table.fn.hasName item

/-- Models `BaseIR` (abstract.py lines 114–140): a module plus its reference
table. -/
structure BaseIR where
  module : IRModule
  ref_table : RefTable
deriving DecidableEq, Repr

/-- Models `IRNode` (ir_graph.py lines 19–71).  The constructor derives every
stored field from the wrapped IR: `_uid = node.module.uid = hash(path)`,
`_path = node.module.path`, `_irhash = IRHash(path)`; they are kept as
derived functions below, which is exactly the constructor's invariant. -/
structure IRNode where
  ir : BaseIR
deriving DecidableEq, Repr

/-- Models the stored `IRNode._path`. -/
def IRNode.path (n : IRNode) : ModPath := n.ir.module.path

/-- Models the stored `IRNode._uid` (`= node.module.uid = hash(path)`), which
is also `IRNode.__hash__`. -/
def IRNode.uid (n : IRNode) : Nat := pathHash n.ir.module.path

/-- Models the stored `IRNode._irhash` (`= IRHash(path)`). -/
def IRNode.irhash (n : IRNode) : IRHash := IRHash.ofPath n.ir.module.path

/-- Models `IRNode.__eq__` against another `IRNode`: `hash(self) == hash(other)`,
i.e. uid equality. -/
def IRNode.beq (x y : IRNode) : Bool := x.uid == y.uid

/-! ### PHF construction (`_gen_res_a_r_phf` and `gen_phf`, utils.py) -/

/-- Models the `for obj in group_tuple` placement loop of `_gen_res_a_r_phf`
(utils.py lines 130–141), specialised to `IRNode` elements (Python hashes and
compares them through `IRNode.__hash__`/`__eq__`, i.e. by uid).  `res` is the
slot list (`res_list`, initially all `None`); an element is placed at its
computed slot when no already-placed element compares equal to it
(`obj not in res_list`) and the slot is still empty (`res_list[h] is None`);
otherwise the loop aborts with a collision (`none`). -/
def phfPlace (a r prime tuple_len : Nat) :
    List IRNode → List (Option IRNode) → Option (List (Option IRNode))
  | [], res => some res
  | obj :: rest, res =>
    let h := get_hash_with_args obj.uid a r tuple_len prime
    if (res.any fun s => match s with
        | some y => IRNode.beq obj y
        | none => false) = false ∧ res[h]? = some none then
      phfPlace a r prime tuple_len rest (res.set h (some obj))
    else
      none

/-- Models `if not collision and None not in res_list: return tuple(res_list)`:
the slot list converts to a plain tuple exactly when every slot is filled. -/
def allSome {α : Type} : List (Option α) → Option (List α)
  | [] => some []
  | none :: _ => none
  | some x :: rest => (allSome rest).map (x :: ·)

/-- Models `_gen_res_a_r_phf` (utils.py lines 108–146): run the placement
loop over a fresh all-`None` slot list of length `tuple_len`; on a collision,
or when some slot remains `None`, return the empty tuple. -/
def gen_res_a_r_phf (group_tuple : List IRNode) (tuple_len a r prime : Nat) :
    List IRNode :=
  match phfPlace a r prime tuple_len group_tuple (List.replicate tuple_len none) with
  | none => []
  | some final =>
    match allSome final with
    | some out => out
    | none => []

/-- Models the candidate enumeration of `gen_phf` (utils.py lines 170–171):
`for a in range(1, PHF_A_LIMIT): for r in range(PHF_R_LIMIT)`, flattened in
row-major order (`a` outer, `r` inner). -/
def phfCandidates : List (Nat × Nat) :=
  (List.range' 1 (PHF_A_LIMIT - 1)).flatMap fun a =>
    (List.range PHF_R_LIMIT).map fun r => (a, r)

/-- Models the body of `gen_phf`'s double loop: try each candidate `(a, r)` in
order and return the first whose slot tuple is non-empty (Python
`if res_list:`), together with the `ResultPHF`. -/
def gen_phf_loop (group_tuple : List IRNode) (tuple_len prime : Nat) :
    List (Nat × Nat) → Option (List IRNode × ResultPHF)
  | [] => none
  | c :: rest =>
    let res := gen_res_a_r_phf group_tuple tuple_len c.1 c.2 prime
    if res ≠ [] then some (res, ⟨c.1, c.2, prime, tuple_len⟩)
    else gen_phf_loop group_tuple tuple_len prime rest

/-- Models `gen_phf` (utils.py lines 149–177): `none` models the final
`raise ValueError` after exhausting the whole search space. -/
def gen_phf (group_tuple : List IRNode) : Option (List IRNode × ResultPHF) :=
  gen_phf_loop group_tuple group_tuple.length
    (get_phf_prime group_tuple.length) phfCandidates

/-! ### NodeSet (`ir_graph.py` lines 74–153) -/

/-- Models `NodeSet`: the frozen slot tuple plus the optional PHF result. -/
structure NodeSet where
  data : List IRNode
  phf : Option ResultPHF
deriving DecidableEq, Repr

/-- An arbitrary Python object passed to `NodeSet.__init__`'s `*data`: either
an actual `IRNode` instance or anything else. -/
inductive PyVal where
  | node : IRNode → PyVal
  | other : Nat → PyVal
deriving DecidableEq, Repr

/-- Models `isinstance(k, IRNode)`. -/
def PyVal.isIRNode : PyVal → Bool
  | .node _ => true
  | .other _ => false

/-- Models the acceptance check of `NodeSet.__init__` (ir_graph.py lines
83–93).  The Python condition
`all(isinstance(k, IRNode) for k in data) and isinstance(phf, ResultPHF) or
phf is None` parses as `(all(...) and isinstance(...)) or phf is None`; when
it holds the data is stored, otherwise `ValueError` is raised. -/
def NodeSet.initCheck (data : List PyVal) (phf : Option ResultPHF) :
    Except String (List PyVal × Option ResultPHF) :=
  if (data.all PyVal.isIRNode && phf.isSome) || phf.isNone then
    Except.ok (data, phf)
  else
    Except.error "node set accepts only IRNode instances"

/-- Models `NodeSet.__contains__` on an `IRHash` item (ir_graph.py lines
114–117): scan the slots for a node whose `irhash` compares equal to the
item, i.e. has the same uid. -/
def NodeSet.containsHash (s : NodeSet) (item : IRHash) : Bool :=
  s.data.any fun node => item.uid == node.irhash.uid

/-- Models `NodeSet.__getitem__` on an `IRHash` item (ir_graph.py lines
134–144): with a PHF present, return the node at slot
`get_hash(hash(item), phf)` (`hash(item)` is the item's uid); `none` models
the `ValueError` raised without a PHF as well as an out-of-range slot
(`IndexError`). -/
def NodeSet.getItemHash (s : NodeSet) (item : IRHash) : Option IRNode :=
  match s.phf with
  | some phf => s.data[get_hash item.uid phf]?
  | none => none

/-! ### IRGraph (`ir_graph.py` lines 156–290) -/

/-- Models `IRGraph`: built flag, frozen node set, temporary building list.
The recorded main-node identity is irrelevant to every claim and omitted. -/
structure IRGraph where
  is_built : Bool
  nodes : NodeSet
  tmp_nodes : List IRNode
deriving DecidableEq, Repr

/-- Models `IRGraph.__init__`. -/
def IRGraph.initial : IRGraph :=
  { is_built := false, nodes := ⟨[], none⟩, tmp_nodes := [] }

/-- Models `IRGraph.add_node` (ir_graph.py lines 186–191): wrap the IR as a
node, append it to the building list and return its identity. -/
def IRGraph.add_node (g : IRGraph) (ir : BaseIR) : IRGraph × IRHash :=
  let node : IRNode := ⟨ir⟩
  ({ g with tmp_nodes := g.tmp_nodes ++ [node] }, node.irhash)

/-- Models `IRGraph._check_refs` (ir_graph.py lines 198–212): every identity
recorded in any node's type-reference or function-reference table must be
contained in the frozen node set (Python returns `False` at the first missing
one, which is the same Bool). -/
def IRGraph.check_refs (g : IRGraph) : Bool :=
  g.nodes.data.all fun node =>
    (node.ir.ref_table.types.all fun p => g.nodes.containsHash p.2) &&
    (node.ir.ref_table.fns.all fun p => g.nodes.containsHash p.2)

/-- Models `IRGraph.build` (ir_graph.py lines 214–232), as state plus raised
error: when not yet built and the building list is non-empty, compute the PHF
over the building list, replace the node set by the frozen result, empty the
building list, then check references — success sets `is_built`, failure
raises but keeps the already-performed replacement, exactly as the Python
mutations do.  Otherwise raise the state error. -/
def IRGraph.build (g : IRGraph) : IRGraph × Option String :=
  if g.is_built = false ∧ 0 < g.tmp_nodes.length then
    match gen_phf g.tmp_nodes with
    | some pr =>
      let g' : IRGraph := { g with nodes := ⟨pr.1, some pr.2⟩, tmp_nodes := [] }
      if g'.check_refs then ({ g' with is_built := true }, none)
      else (g', some "missing nodes to build the ir graph")
    | none =>
      (g, some "could not find satisfactory parameter values to generate the PHF")
  else
    (g, some "ir graph is already built or no nodes were found")

/-- Models the scan loop of `IRGraph.get_fns` (ir_graph.py lines 253–263):
find the first node matching the path whose module contains the item; return
the keys of its overload dictionary when `FnTable.get` yields a dict
(insertion order preserved), keep scanning when it yields `None`; error when
the scan is exhausted. -/
def getFnsScan (module_path : ModPath) (item : Symbol) :
    List IRNode → Except String (List FnHeader)
  | [] => Except.error "item not found in ir node at module path"
  | n :: rest =>
    if module_path = n.path ∧ n.ir.module.containsSym item = true then
      match FnTable.getSym n.ir.module.symbol_table.fn item with
      | some fns => Except.ok (fns.map Prod.fst)
      | none => getFnsScan module_path item rest
    else getFnsScan module_path item rest

/-- Models `_nodes = self._tmp_nodes or self._nodes` in `IRGraph.get_fns`
(ir_graph.py line 254): the building list while it is non-empty, the frozen
set otherwise. -/
def IRGraph.scanList (g : IRGraph) : List IRNode :=
  if g.tmp_nodes ≠ [] then g.tmp_nodes else g.nodes.data

/-- Models `IRGraph.get_fns` (ir_graph.py lines 247–263). -/
def IRGraph.get_fns (g : IRGraph) (module_path : ModPath) (item : Symbol) :
    Except String (List FnHeader) :=
  getFnsScan module_path item g.scanList

/-- The four shapes a Python object given to `IRGraph.__contains__` can take:
a `Symbol`, an `FnHeader`, a `Path`, or anything else. -/
inductive ContainQuery where
  | sym : Symbol → ContainQuery
  | fnh : FnHeader → ContainQuery
  | path : ModPath → ContainQuery
  | other : Nat → ContainQuery
deriving DecidableEq, Repr

/-- Models `IRNode.__contains__` (ir_graph.py lines 65–68):
`item in self._ir.module or item == self._path`.  For a `Symbol` the module
check consults the type and fn tables; for a `Path` both table checks are
`False` (a path never equals a symbol key) and the path comparison decides;
for an `FnHeader` the type-table check is `False` and the fn-table check
`item in self._table[item.name]` raises `KeyError` when the name is absent;
any other object is contained nowhere. -/
def IRNode.containsItem (n : IRNode) : ContainQuery → Except String Bool
  | .sym s => Except.ok (n.ir.module.containsSym s)
  | .fnh h =>
    match lookupKey n.ir.module.symbol_table.fn h.name with
    | some inner => Except.ok (lookupKey inner h).isSome
    | none => Except.error "KeyError"
  | .path p => Except.ok (p == n.path)
  | .other _ => Except.ok false

/-- The `for tmp_node in self._tmp_nodes: if item in tmp_node: return True`
loop of `IRGraph.__contains__`, with node-level exceptions propagated. -/
def scanContains (item : ContainQuery) : List IRNode → Except String Bool
  | [] => Except.ok false
  | n :: rest =>
    match n.containsItem item with
    | Except.error e => Except.error e
    | Except.ok true => Except.ok true
    | Except.ok false => scanContains item rest

/-- Models `IRGraph.__contains__` (ir_graph.py lines 265–276): `Symbol`,
`FnHeader` and `Path` items are searched in the temporary building list only;
anything else is `False` without scanning. -/
def IRGraph.containsItem (g : IRGraph) (item : ContainQuery) : Except String Bool :=
  match item with
  | .other _ => Except.ok false
  | _ => scanContains item g.tmp_nodes

/-! ### Derived notions used by the statements -/

/-- Row-major order on candidate pairs `(a, r)`: earlier means a smaller `a`,
or the same `a` with a smaller `r`. -/
def rowMajorLt (p q : Nat × Nat) : Prop :=
  p.1 < q.1 ∨ (p.1 = q.1 ∧ p.2 < q.2)

/-- Every identity recorded in any added node's type-reference or
function-reference table is the identity of some added node (identities
compare by uid, as in `IRHash.__eq__`). -/
def refsResolve (g : IRGraph) : Prop :=
  ∀ node ∈ g.tmp_nodes,
    (∀ p ∈ node.ir.ref_table.types, ∃ m ∈ g.tmp_nodes, p.2.uid = m.irhash.uid) ∧
    (∀ p ∈ node.ir.ref_table.fns, ∃ m ∈ g.tmp_nodes, p.2.uid = m.irhash.uid)

instance refsResolveDecidable (g : IRGraph) : Decidable (refsResolve g) :=
  decidable_of_iff
    (∀ node ∈ g.tmp_nodes,
      (∀ p ∈ node.ir.ref_table.types, ∃ m ∈ g.tmp_nodes, p.2.uid = m.irhash.uid) ∧
      (∀ p ∈ node.ir.ref_table.fns, ∃ m ∈ g.tmp_nodes, p.2.uid = m.irhash.uid))
    Iff.rfl

/-- The overload signatures stored under a name, in stored (insertion) order:
the keys of the inner dictionary, or `[]` when the name is absent. -/
def fnKeys (t : FnTable) (name : Symbol) : List FnHeader :=
  match FnTable.getSym t name with
  | some fns => fns.map Prod.fst
  | none => []

/-! ### Concrete sample data (used only by witness theorems) -/

/-- Sample function overload signature. -/
def hdrAdd : FnHeader := ⟨"add", ["u64", "u64"]⟩

/-- Sample second overload of the same name. -/
def hdrAdd1 : FnHeader := ⟨"add", ["u32"]⟩

/-- Sample symbol table: one type, one function name with two overloads. -/
def sampleSt : SymbolTable :=
  ⟨[("t1", ⟨0⟩)], [("add", [(hdrAdd, ⟨0⟩), (hdrAdd1, ⟨1⟩)])], [], [], []⟩

/-- Sample unit at path `src/a`, no references. -/
def sampleIrA : BaseIR := ⟨⟨"src/a", sampleSt⟩, ⟨[], []⟩⟩

/-- Sample unit at path `src/b`, referencing the type `t1` of `src/a`. -/
def sampleIrB : BaseIR :=
  ⟨⟨"src/b", ⟨[], [], [], [], []⟩⟩, ⟨[("t1", IRHash.ofPath "src/a")], []⟩⟩

/-- Sample unit at path `src/c`, referencing a type of a never-added unit. -/
def sampleIrC : BaseIR :=
  ⟨⟨"src/c", ⟨[], [], [], [], []⟩⟩, ⟨[("t9", IRHash.ofPath "src/zzz")], []⟩⟩

/-- Sample node wrapping `sampleIrA`. -/
def sampleNodeA : IRNode := ⟨sampleIrA⟩

/-- Sample node wrapping `sampleIrB`. -/
def sampleNodeB : IRNode := ⟨sampleIrB⟩

/-- Sample node wrapping `sampleIrC`. -/
def sampleNodeC : IRNode := ⟨sampleIrC⟩

/-- Graph with the two resolvable sample units added. -/
def sampleGraphAB : IRGraph :=
  ((IRGraph.initial.add_node sampleIrA).1.add_node sampleIrB).1

/-- Graph with an unresolvable reference added. -/
def sampleGraphAC : IRGraph :=
  ((IRGraph.initial.add_node sampleIrA).1.add_node sampleIrC).1

/-- Graph with the same unit added twice (nothing stops `add_node` from
re-adding a module). -/
def sampleGraphAA : IRGraph :=
  ((IRGraph.initial.add_node sampleIrA).1.add_node sampleIrA).1

/-! ## Lemmas about the placement loop -/

theorem phfPlace_length {a r prime n : Nat} {pending : List IRNode} :
    ∀ {res final : List (Option IRNode)},
      phfPlace a r prime n pending res = some final → final.length = res.length := by
  induction pending with
  | nil =>
      intro res final h
      simp only [phfPlace, Option.some.injEq] at h
      simp [← h]
  | cons obj rest ih =>
      intro res final h
      rw [phfPlace] at h
      split at h
      · have := ih h
        simpa using this
      · cases h

theorem phfPlace_preserve {a r prime n : Nat} {pending : List IRNode} :
    ∀ {res final : List (Option IRNode)},
      phfPlace a r prime n pending res = some final →
      ∀ (i : Nat) (x : IRNode), res[i]? = some (some x) → final[i]? = some (some x) := by
  induction pending with
  | nil =>
      intro res final h i x hx
      simp only [phfPlace, Option.some.injEq] at h
      rw [← h]; exact hx
  | cons obj rest ih =>
      intro res final h i x hx
      rw [phfPlace] at h
      split at h
      · rename_i hcond
        apply ih h
        by_cases hi : get_hash_with_args obj.uid a r n prime = i
        · rw [← hi] at hx
          rw [hcond.2] at hx
          cases hx
        · rw [List.getElem?_set_ne hi]
          exact hx
      · cases h

theorem phfPlace_places {a r prime n : Nat} {pending : List IRNode} :
    ∀ {res final : List (Option IRNode)},
      phfPlace a r prime n pending res = some final →
      ∀ obj ∈ pending,
        final[get_hash_with_args obj.uid a r n prime]? = some (some obj) := by
  induction pending with
  | nil => intro res final _ obj hobj; cases hobj
  | cons o rest ih =>
      intro res final h obj hobj
      rw [phfPlace] at h
      split at h
      · rename_i hcond
        rcases List.mem_cons.mp hobj with rfl | hmem
        · apply phfPlace_preserve h
          have hlt : get_hash_with_args obj.uid a r n prime < res.length := by
            rcases List.getElem?_eq_some_iff.mp hcond.2 with ⟨hl, _⟩
            exact hl
          rw [List.getElem?_set_self hlt]
        · exact ih h obj hmem
      · cases h

theorem phfPlace_src {a r prime n : Nat} {pending : List IRNode} :
    ∀ {res final : List (Option IRNode)},
      phfPlace a r prime n pending res = some final →
      ∀ (i : Nat) (x : IRNode), final[i]? = some (some x) → res[i]? = some (some x) ∨ x ∈ pending := by
  induction pending with
  | nil =>
      intro res final h i x hx
      simp only [phfPlace, Option.some.injEq] at h
      rw [h]; exact Or.inl hx
  | cons o rest ih =>
      intro res final h i x hx
      rw [phfPlace] at h
      split at h
      · rcases ih h i x hx with hset | hrest
        · by_cases hi : get_hash_with_args o.uid a r n prime = i
          · rw [← hi] at hset
            have hlt : get_hash_with_args o.uid a r n prime < res.length := by
              rename_i hcond
              rcases List.getElem?_eq_some_iff.mp hcond.2 with ⟨hl, _⟩
              exact hl
            rw [List.getElem?_set_self hlt] at hset
            cases hset
            exact Or.inr (List.mem_cons_self _ _)
          · rw [List.getElem?_set_ne hi] at hset
            exact Or.inl hset
        · exact Or.inr (List.mem_cons_of_mem _ hrest)
      · cases h

theorem allSome_eq_map {α : Type} :
    ∀ {l : List (Option α)} {out : List α}, allSome l = some out → l = out.map some := by
  intro l
  induction l with
  | nil =>
      intro out h
      simp only [allSome, Option.some.injEq] at h
      simp [← h]
  | cons o rest ih =>
      intro out h
      match o with
      | none => simp [allSome] at h
      | some x =>
          rw [allSome] at h
          cases hrest : allSome rest with
          | none => rw [hrest] at h; cases h
          | some tail =>
              rw [hrest] at h
              simp only [Option.map_some', Option.some.injEq] at h
              rw [← h]
              simp [ih hrest]

theorem phfPlace_pairwise {a r prime n : Nat} {pending : List IRNode} :
    ∀ {res final : List (Option IRNode)},
      phfPlace a r prime n pending res = some final →
      (pending.Pairwise fun x y => x.uid ≠ y.uid) ∧
      (∀ x ∈ pending, ∀ y : IRNode, some y ∈ res → y.uid ≠ x.uid) := by
  induction pending with
  | nil =>
      intro res final _
      exact ⟨List.Pairwise.nil, fun x hx => absurd hx (List.not_mem_nil x)⟩
  | cons obj rest ih =>
      intro res final h
      rw [phfPlace] at h
      split at h
      · rename_i hcond
        obtain ⟨hpair, hres'⟩ := ih h
        obtain ⟨hlt, _⟩ := List.getElem?_eq_some_iff.mp hcond.2
        have hmemobj : some obj ∈
            res.set (get_hash_with_args obj.uid a r n prime) (some obj) :=
          List.mem_iff_getElem?.mpr ⟨_, List.getElem?_set_self hlt⟩
        have hpreserve : ∀ y : IRNode, some y ∈ res →
            some y ∈ res.set (get_hash_with_args obj.uid a r n prime) (some obj) := by
          intro y hy
          obtain ⟨i, hi⟩ := List.getElem?_of_mem hy
          have hine : get_hash_with_args obj.uid a r n prime ≠ i := by
            intro he
            rw [← he, hcond.2] at hi
            cases hi
          refine List.mem_iff_getElem?.mpr ⟨i, ?_⟩
          rw [List.getElem?_set_ne hine]
          exact hi
        have hany : ∀ y : IRNode, some y ∈ res → y.uid ≠ obj.uid := by
          intro y hy heq
          have := List.any_eq_false.mp hcond.1 (some y) hy
          simp only [IRNode.beq] at this
          rw [heq] at this
          simp at this
        constructor
        · refine List.pairwise_cons.mpr ⟨?_, hpair⟩
          intro x hx
          exact hres' x hx obj hmemobj
        · intro x hx y hy
          rcases List.mem_cons.mp hx with rfl | hx'
          · exact hany y hy
          · exact hres' x hx' y (hpreserve y hy)
      · cases h

/-! ## Lemmas about one PHF candidate (`_gen_res_a_r_phf`) -/

theorem gen_res_eq_some {group : List IRNode} {n a r prime : Nat} {out : List IRNode}
    (h : gen_res_a_r_phf group n a r prime = out) (hne : out ≠ []) :
    ∃ final, phfPlace a r prime n group (List.replicate n none) = some final ∧
      allSome final = some out := by
  unfold gen_res_a_r_phf at h
  cases hp : phfPlace a r prime n group (List.replicate n none) with
  | none =>
      rw [hp] at h
      simp only [] at h
      exact absurd h.symm hne
  | some final =>
      rw [hp] at h
      simp only [] at h
      cases ha : allSome final with
      | none =>
          rw [ha] at h
          simp only [] at h
          exact absurd h.symm hne
      | some out' =>
          rw [ha] at h
          simp only [] at h
          exact ⟨final, rfl, by rw [ha, h]⟩

theorem gen_res_places {group : List IRNode} {n a r prime : Nat} {out : List IRNode}
    (h : gen_res_a_r_phf group n a r prime = out) (hne : out ≠ []) :
    ∀ obj ∈ group, out[get_hash_with_args obj.uid a r n prime]? = some obj := by
  obtain ⟨final, hp, ha⟩ := gen_res_eq_some h hne
  have hmap := allSome_eq_map ha
  intro obj hobj
  have hfin := phfPlace_places hp obj hobj
  rw [hmap, List.getElem?_map] at hfin
  cases hout : out[get_hash_with_args obj.uid a r n prime]? with
  | none => rw [hout] at hfin; cases hfin
  | some z => rw [hout] at hfin; simp only [Option.map_some', Option.some.injEq] at hfin; rw [hfin]

theorem gen_res_mem {group : List IRNode} {n a r prime : Nat} {out : List IRNode}
    (h : gen_res_a_r_phf group n a r prime = out) (hne : out ≠ []) :
    ∀ z : IRNode, z ∈ out ↔ z ∈ group := by
  obtain ⟨final, hp, ha⟩ := gen_res_eq_some h hne
  have hmap := allSome_eq_map ha
  intro z
  constructor
  · intro hz
    obtain ⟨i, hi⟩ := List.getElem?_of_mem hz
    have hfin : final[i]? = some (some z) := by
      rw [hmap, List.getElem?_map, hi, Option.map_some']
    rcases phfPlace_src hp i z hfin with hrep | hmem
    · rw [List.getElem?_replicate] at hrep
      split at hrep
      · cases hrep
      · cases hrep
    · exact hmem
  · intro hz
    exact List.mem_iff_getElem?.mpr ⟨_, gen_res_places h hne z hz⟩

theorem gen_res_pairwise_uid {group : List IRNode} {n a r prime : Nat}
    {out : List IRNode} (h : gen_res_a_r_phf group n a r prime = out)
    (hne : out ≠ []) : group.Pairwise fun x y => x.uid ≠ y.uid := by
  obtain ⟨final, hp, _⟩ := gen_res_eq_some h hne
  exact (phfPlace_pairwise hp).1

theorem gen_res_duplicate (x : IRNode) (a r prime : Nat) :
    gen_res_a_r_phf [x, x] 2 a r prime = [] := by
  have hlt : get_hash_with_args x.uid a r 2 prime < 2 := Nat.mod_lt _ (by norm_num)
  have hlt' : get_hash_with_args x.uid a r 2 prime <
      (List.replicate 2 (none : Option IRNode)).length := by
    rw [List.length_replicate]
    exact hlt
  have hmem : some x ∈ (List.replicate 2 (none : Option IRNode)).set
      (get_hash_with_args x.uid a r 2 prime) (some x) :=
    List.mem_iff_getElem?.mpr ⟨_, List.getElem?_set_self hlt'⟩
  have hplace : phfPlace a r prime 2 [x, x] (List.replicate 2 none) = none := by
    rw [phfPlace, if_pos ⟨rfl, List.getElem?_replicate_of_lt hlt⟩, phfPlace,
      if_neg]
    intro hc
    have hany : ((List.replicate 2 (none : Option IRNode)).set
        (get_hash_with_args x.uid a r 2 prime) (some x)).any
          (fun s => match s with
            | some y => IRNode.beq x y
            | none => false) = true :=
      List.any_eq_true.mpr ⟨some x, hmem, by simp [IRNode.beq]⟩
    rw [hc.1] at hany
    cases hany
  unfold gen_res_a_r_phf
  rw [hplace]

theorem gen_phf_loop_duplicate (x : IRNode) (prime : Nat) :
    ∀ l : List (Nat × Nat), gen_phf_loop [x, x] 2 prime l = none := by
  intro l
  induction l with
  | nil => rfl
  | cons c rest ih =>
      rw [gen_phf_loop]
      simp only [gen_res_duplicate x c.1 c.2 prime, ne_eq]
      rw [if_neg (by simp)]
      exact ih

theorem gen_phf_duplicate (x : IRNode) : gen_phf [x, x] = none :=
  gen_phf_loop_duplicate x (get_phf_prime 2) phfCandidates

/-! ## Lemmas about the candidate search (`gen_phf`) -/

theorem gen_phf_loop_some {group : List IRNode} {len prime : Nat} :
    ∀ {l : List (Nat × Nat)} {res : List IRNode} {phf : ResultPHF},
      gen_phf_loop group len prime l = some (res, phf) →
      phf.prime = prime ∧ phf.n = len ∧
      ∃ l₁ l₂, l = l₁ ++ (phf.a, phf.r) :: l₂ ∧
        gen_res_a_r_phf group len phf.a phf.r prime = res ∧ res ≠ [] ∧
        ∀ p ∈ l₁, gen_res_a_r_phf group len p.1 p.2 prime = [] := by
  intro l
  induction l with
  | nil => intro res phf h; cases h
  | cons c rest ih =>
      intro res phf h
      rw [gen_phf_loop] at h
      split at h
      · rename_i hres
        rcases h with ⟨rfl, rfl⟩
        exact ⟨rfl, rfl, [], rest, rfl, rfl, hres, by simp⟩
      · rename_i hres
        obtain ⟨h1, h2, l₁, l₂, hl, h3, h4, h5⟩ := ih h
        refine ⟨h1, h2, c :: l₁, l₂, by rw [hl]; rfl, h3, h4, ?_⟩
        intro p hp
        rcases List.mem_cons.mp hp with rfl | hmem
        · simpa using hres
        · exact h5 p hmem

theorem mem_phfCandidates {a r : Nat} :
    (a, r) ∈ phfCandidates ↔ 1 ≤ a ∧ a < PHF_A_LIMIT ∧ r < PHF_R_LIMIT := by
  constructor
  · intro h
    obtain ⟨a', ha', hmem⟩ := List.mem_flatMap.mp h
    obtain ⟨r', hr', heq⟩ := List.mem_map.mp hmem
    obtain ⟨i, hi, hai⟩ := List.mem_range'.mp ha'
    rw [List.mem_range] at hr'
    obtain ⟨rfl, rfl⟩ := Prod.mk.injEq .. ▸ heq
    constructor
    · omega
    · constructor
      · have : (0:Nat) < PHF_A_LIMIT := by norm_num [PHF_A_LIMIT]
        omega
      · exact hr'
  · rintro ⟨h1, h2, h3⟩
    refine List.mem_flatMap.mpr ⟨a, ?_, List.mem_map.mpr ⟨r, List.mem_range.mpr h3, rfl⟩⟩
    refine List.mem_range'.mpr ⟨a - 1, by omega, by omega⟩

theorem pairwise_flatMap_rowMajor {as : List Nat} (ha : as.Pairwise (· < ·)) (R : Nat) :
    (as.flatMap fun a => (List.range R).map fun r => (a, r)).Pairwise rowMajorLt := by
  induction as with
  | nil => simp
  | cons a rest ih =>
      rw [List.flatMap_cons]
      have hpa := List.pairwise_cons.mp ha
      refine List.pairwise_append.mpr ⟨?_, ih hpa.2, ?_⟩
      · rw [List.pairwise_map]
        exact (List.sorted_lt_range R).imp fun hrr => Or.inr ⟨rfl, hrr⟩
      · intro x hx y hy
        obtain ⟨r1, _, hx1⟩ := List.mem_map.mp hx
        obtain ⟨a2, ha2, hy2⟩ := List.mem_flatMap.mp hy
        obtain ⟨r2, _, hy3⟩ := List.mem_map.mp hy2
        rw [← hx1, ← hy3]
        exact Or.inl (hpa.1 a2 ha2)

theorem phfCandidates_sorted : List.Pairwise rowMajorLt phfCandidates := by
  apply pairwise_flatMap_rowMajor
  rw [List.range'_eq_map_range, List.pairwise_map]
  exact (List.sorted_lt_range _).imp fun hab => by omega

/-! ## Lemmas about the association-list dictionaries -/

theorem lookupKey_isSome_iff_mem {κ α : Type} [DecidableEq κ] {d : List (κ × α)}
    {k : κ} : (lookupKey d k).isSome = true ↔ k ∈ d.map Prod.fst := by
  induction d with
  | nil => simp [lookupKey]
  | cons kv rest ih =>
      rw [lookupKey]
      by_cases hk : kv.1 = k
      · simp [hk]
      · simp only [if_neg hk, List.map_cons, List.mem_cons, ih]
        constructor
        · exact Or.inr
        · rintro (h | h)
          · exact absurd h.symm hk
          · exact h

theorem lookupKey_append_of_none {κ α : Type} [DecidableEq κ]
    {l₁ l₂ : List (κ × α)} {k : κ} (h : lookupKey l₁ k = none) :
    lookupKey (l₁ ++ l₂) k = lookupKey l₂ k := by
  induction l₁ with
  | nil => rfl
  | cons kv rest ih =>
      rw [lookupKey] at h
      rw [List.cons_append, lookupKey]
      by_cases hk : kv.1 = k
      · rw [if_pos hk] at h; cases h
      · rw [if_neg hk] at h ⊢
        exact ih h

theorem lookupKey_map_update {κ α : Type} [DecidableEq κ] {t : List (κ × α)}
    {k : κ} {v : α} {f : α → α} (h : lookupKey t k = some v) :
    lookupKey (t.map fun kv => if kv.1 = k then (kv.1, f kv.2) else kv) k
      = some (f v) := by
  induction t with
  | nil => cases h
  | cons kv rest ih =>
      rw [lookupKey] at h
      by_cases hk : kv.1 = k
      · subst hk
        rw [if_pos rfl] at h
        cases h
        simp [lookupKey]
      · rw [if_neg hk] at h
        rw [List.map_cons, lookupKey]
        simp only [if_neg hk]
        exact ih h

theorem dictInsert_keys {κ α : Type} [DecidableEq κ] (d : List (κ × α)) (k : κ)
    (v : α) :
    (dictInsert d k v).map Prod.fst =
      if k ∈ d.map Prod.fst then d.map Prod.fst else d.map Prod.fst ++ [k] := by
  unfold dictInsert
  by_cases hk : k ∈ d.map Prod.fst
  · rw [if_pos (lookupKey_isSome_iff_mem.mpr hk), if_pos hk, List.map_map]
    apply List.map_congr_left
    intro kv _
    by_cases hkv : kv.1 = k <;> simp [hkv]
  · rw [if_neg (by simp [lookupKey_isSome_iff_mem, hk]), if_neg hk]
    simp

theorem fnKeys_add (t : FnTable) (h : FnHeader) (d : FnDef) :
    fnKeys (FnTable.add t h d) h.name =
      if h ∈ fnKeys t h.name then fnKeys t h.name else fnKeys t h.name ++ [h] := by
  unfold fnKeys FnTable.add FnTable.getSym
  cases hl : lookupKey t h.name with
  | none =>
      rw [if_neg (by simp [hl])]
      rw [lookupKey_append_of_none hl]
      simp only [lookupKey, if_pos rfl]
      simp [hl]
  | some fns =>
      rw [if_pos (by simp [hl])]
      rw [@lookupKey_map_update _ _ _ t h.name fns (fun v => dictInsert v h d) hl]
      simp only []
      exact dictInsert_keys fns h d

/-! ## Lemmas about the `get_fns` scan and the build transition -/

theorem containsSym_false_getSym_none {m : IRModule} {item : Symbol}
    (h : m.containsSym item = false) :
    FnTable.getSym m.symbol_table.fn item = none := by
  unfold IRModule.containsSym at h
  rw [Bool.or_eq_false_iff] at h
  have := h.2
  unfold FnTable.hasName at this
  unfold FnTable.getSym
  cases hl : lookupKey m.symbol_table.fn item with
  | none => rfl
  | some fns => rw [hl] at this; cases this

theorem getFnsScan_no_entry {p : ModPath} {item : Symbol} :
    ∀ {ns : List IRNode},
      (∀ n ∈ ns, n.path = p →
        FnTable.getSym n.ir.module.symbol_table.fn item = none) →
      getFnsScan p item ns =
        Except.error "item not found in ir node at module path" := by
  intro ns
  induction ns with
  | nil => intro _; rfl
  | cons n rest ih =>
      intro hno
      rw [getFnsScan]
      split
      · rename_i hcond
        rw [hno n (List.mem_cons_self _ _) hcond.1.symm]
        exact ih fun m hm => hno m (List.mem_cons_of_mem _ hm)
      · exact ih fun m hm => hno m (List.mem_cons_of_mem _ hm)

theorem getFnsScan_unique {p : ModPath} {item : Symbol} {m : IRNode}
    (hmp : m.path = p) :
    ∀ {ns : List IRNode}, m ∈ ns → (∀ n ∈ ns, n.path = p → n = m) →
      getFnsScan p item ns =
        match FnTable.getSym m.ir.module.symbol_table.fn item with
        | some fns => Except.ok (fns.map Prod.fst)
        | none => Except.error "item not found in ir node at module path" := by
  intro ns
  induction ns with
  | nil => intro h; cases h
  | cons n rest ih =>
      intro hmem huniq
      rw [getFnsScan]
      by_cases hn : n = m
      · subst hn
        by_cases hcontains : n.ir.module.containsSym item = true
        · rw [if_pos ⟨hmp.symm, hcontains⟩]
          cases hget : FnTable.getSym n.ir.module.symbol_table.fn item with
          | some fns => simp only []
          | none =>
              simp only []
              exact getFnsScan_no_entry fun k hk hkp => by
                rw [huniq k (List.mem_cons_of_mem _ hk) hkp]
                exact hget
        · rw [if_neg fun hc => hcontains hc.2]
          rw [containsSym_false_getSym_none (Bool.not_eq_true _ ▸ hcontains)]
          exact getFnsScan_no_entry fun k hk hkp => by
            rw [huniq k (List.mem_cons_of_mem _ hk) hkp]
            exact containsSym_false_getSym_none (Bool.not_eq_true _ ▸ hcontains)
      · have hnp : ¬ n.path = p := fun hp => hn (huniq n (List.mem_cons_self _ _) hp)
        rw [if_neg fun hc => hnp hc.1.symm]
        have hmem' : m ∈ rest := by
          rcases List.mem_cons.mp hmem with h | h
          · exact absurd h.symm hn
          · exact h
        exact ih hmem' fun k hk hkp => huniq k (List.mem_cons_of_mem _ hk) hkp

theorem build_success_shape {g g2 : IRGraph}
    (hbuild : IRGraph.build g = (g2, none)) :
    ∃ pr : List IRNode × ResultPHF,
      gen_phf g.tmp_nodes = some pr ∧ 0 < g.tmp_nodes.length ∧
      g2 = { g with nodes := ⟨pr.1, some pr.2⟩, tmp_nodes := [], is_built := true } := by
  unfold IRGraph.build at hbuild
  by_cases hcond : (g.is_built = false ∧ 0 < g.tmp_nodes.length)
  · rw [if_pos hcond] at hbuild
    cases h3 : gen_phf g.tmp_nodes with
    | none =>
        rw [h3] at hbuild
        simp only [] at hbuild
        exact absurd (congrArg Prod.snd hbuild) (by simp)
    | some pr =>
        rw [h3] at hbuild
        simp only [] at hbuild
        split at hbuild
        · refine ⟨pr, rfl, hcond.2, ?_⟩
          exact ((Prod.ext_iff.mp hbuild).1).symm
        · exact absurd (congrArg Prod.snd hbuild) (by simp)
  · rw [if_neg hcond] at hbuild
    exact absurd (congrArg Prod.snd hbuild) (by simp)

theorem check_refs_iff {g : IRGraph} {res : List IRNode} {phf : ResultPHF}
    (hmem : ∀ z : IRNode, z ∈ res ↔ z ∈ g.tmp_nodes) :
    (IRGraph.check_refs { g with nodes := ⟨res, some phf⟩, tmp_nodes := [] } = true)
      ↔ refsResolve g := by
  unfold IRGraph.check_refs refsResolve NodeSet.containsHash
  simp only [List.all_eq_true, List.any_eq_true, Bool.and_eq_true, beq_iff_eq]
  constructor
  · intro hres node hnode
    obtain ⟨ht, hf⟩ := hres node ((hmem node).mpr hnode)
    constructor
    · intro p hp
      obtain ⟨x, hx, he⟩ := ht p hp
      exact ⟨x, (hmem x).mp hx, he⟩
    · intro p hp
      obtain ⟨x, hx, he⟩ := hf p hp
      exact ⟨x, (hmem x).mp hx, he⟩
  · intro htmp node hnode
    obtain ⟨ht, hf⟩ := htmp node ((hmem node).mp hnode)
    constructor
    · intro p hp
      obtain ⟨x, hx, he⟩ := ht p hp
      exact ⟨x, (hmem x).mpr hx, he⟩
    · intro p hp
      obtain ⟨x, hx, he⟩ := hf p hp
      exact ⟨x, (hmem x).mpr hx, he⟩

/-! ## Claim theorems -/

/-- C7: `get_phf_prime` returns 37 when the item count is at most 32, 67 up
to 64, 257 up to 256, 4099 up to 4096, 16411 up to 16384, and otherwise the
larger fallback 1048583, which is indeed a prime exceeding 16411. -/
theorem get_phf_prime_size_classes (n : Nat) :
    (n ≤ 32 → get_phf_prime n = 37) ∧
    (32 < n → n ≤ 64 → get_phf_prime n = 67) ∧
    (64 < n → n ≤ 256 → get_phf_prime n = 257) ∧
    (256 < n → n ≤ 4096 → get_phf_prime n = 4099) ∧
    (4096 < n → n ≤ 16384 → get_phf_prime n = 16411) ∧
    (16384 < n → get_phf_prime n = 1048583 ∧ 16411 < 1048583 ∧ Nat.Prime 1048583) := by
  refine ⟨fun h => ?_, fun h1 h2 => ?_, fun h1 h2 => ?_, fun h1 h2 => ?_,
    fun h1 h2 => ?_, fun h => ⟨?_, by norm_num, by norm_num⟩⟩ <;>
    · unfold get_phf_prime
      split_ifs <;> omega

/-- Witness for C7: concrete member of each of three size classes. -/
theorem get_phf_prime_size_classes_witness :
    get_phf_prime 10 = 37 ∧ get_phf_prime 100 = 257 ∧ get_phf_prime 20000 = 1048583 :=
  ⟨(get_phf_prime_size_classes 10).1 (by norm_num),
   (get_phf_prime_size_classes 100).2.2.1 (by norm_num) (by norm_num),
   ((get_phf_prime_size_classes 20000).2.2.2.2.2 (by norm_num)).1⟩

/-- C8: `TypeTable.add` with an already-present name leaves the table
completely unchanged (no overwrite, no error); with an absent name it
appends the new binding at the end of the insertion order. -/
theorem typeTable_add_idempotent_if_present (t : TypeTable) (name : Symbol)
    (data : TypeDef) :
    ((lookupKey t name).isSome = true → TypeTable.add t name data = t) ∧
    ((lookupKey t name).isSome = false →
      TypeTable.add t name data = t ++ [(name, data)]) := by
  constructor
  · intro h; simp [TypeTable.add, h]
  · intro h; simp [TypeTable.add, h]

/-- Witness for C8: a present name is a no-op, an absent name appends. -/
theorem typeTable_add_idempotent_if_present_witness :
    TypeTable.add [("t1", ⟨0⟩)] "t1" ⟨5⟩ = [("t1", ⟨0⟩)] ∧
    TypeTable.add [("t1", ⟨0⟩)] "t2" ⟨5⟩ = [("t1", ⟨0⟩), ("t2", ⟨5⟩)] :=
  ⟨(typeTable_add_idempotent_if_present [("t1", ⟨0⟩)] "t1" ⟨5⟩).1 (by decide),
   (typeTable_add_idempotent_if_present [("t1", ⟨0⟩)] "t2" ⟨5⟩).2 (by decide)⟩

/-- C3 (evidence for the code bug): `ConstTable.add` raises on every call —
the `raise` is not guarded by an `else` — while a constant value has already
been stored by the time the error is raised; a non-constant value is not
stored. -/
theorem constTable_add_always_raises (t : ConstTable) (item : DataDef) :
    (ConstTable.add t item).error =
      some "data must be constant to be added to ConstTable" ∧
    (ConstTable.add t item).table =
      (if item.is_constant then dictInsert t item.name item else t) :=
  ⟨rfl, rfl⟩

/-- C10: the `NodeSet` constructor check accepts any data when `phf` is
`None` (the element type check is bypassed), and with a `ResultPHF` supplied
it succeeds exactly when every element is an `IRNode` instance. -/
theorem nodeSet_initCheck_gate (data : List PyVal) (p : ResultPHF) :
    NodeSet.initCheck data none = Except.ok (data, none) ∧
    (NodeSet.initCheck data (some p) = Except.ok (data, some p) ↔
      data.all PyVal.isIRNode = true) := by
  unfold NodeSet.initCheck
  cases hall : data.all PyVal.isIRNode <;> simp [hall]

/-- C5: `build()` on an already-built graph raises the state error and
returns the graph unchanged (frozen node set and PHF index intact), and
`build()` on a graph with an empty building list raises the same state
error, also unchanged. -/
theorem build_state_errors (g : IRGraph) :
    (g.is_built = true →
      IRGraph.build g = (g, some "ir graph is already built or no nodes were found")) ∧
    (g.tmp_nodes = [] →
      IRGraph.build g = (g, some "ir graph is already built or no nodes were found")) := by
  constructor
  · intro h
    unfold IRGraph.build
    rw [if_neg (by simp [h])]
  · intro h
    unfold IRGraph.build
    rw [if_neg (by simp [h])]

/-- C6: `gen_phf` searches candidates `(a, r)` in row-major order — `a` outer
starting at 1, `r` inner starting at 0 — and returns the first candidate that
places all items without collision: the returned candidate itself succeeds,
it lies inside the search bounds, every valid candidate strictly earlier in
row-major order fails, and the result is uniquely determined by the input
tuple. -/
theorem gen_phf_first_row_major (group res : List IRNode) (phf : ResultPHF)
    (h : gen_phf group = some (res, phf)) :
    (phf.prime = get_phf_prime group.length ∧ phf.n = group.length) ∧
    (1 ≤ phf.a ∧ phf.a < PHF_A_LIMIT ∧ phf.r < PHF_R_LIMIT) ∧
    (gen_res_a_r_phf group group.length phf.a phf.r
        (get_phf_prime group.length) = res ∧ res ≠ []) ∧
    (∀ a' r', 1 ≤ a' → r' < PHF_R_LIMIT → rowMajorLt (a', r') (phf.a, phf.r) →
      gen_res_a_r_phf group group.length a' r'
        (get_phf_prime group.length) = []) ∧
    (∀ res₂ phf₂, gen_phf group = some (res₂, phf₂) → res₂ = res ∧ phf₂ = phf) := by
  obtain ⟨h1, h2, l₁, l₂, hl, h3, h4, h5⟩ := gen_phf_loop_some h
  have hmemc : (phf.a, phf.r) ∈ phfCandidates := by
    rw [hl]
    exact List.mem_append.mpr (Or.inr (List.mem_cons_self _ _))
  have hbounds := mem_phfCandidates.mp hmemc
  refine ⟨⟨h1, h2⟩, hbounds, ⟨h3, h4⟩, ?_, ?_⟩
  · intro a' r' ha' hr' hlt
    have hlt' : a' < phf.a ∨ (a' = phf.a ∧ r' < phf.r) := hlt
    have hmem : (a', r') ∈ phfCandidates := by
      refine mem_phfCandidates.mpr ⟨ha', ?_, hr'⟩
      rcases hlt' with hlt' | ⟨heq, _⟩
      · exact Nat.lt_trans hlt' hbounds.2.1
      · rw [heq]; exact hbounds.2.1
    rw [hl] at hmem
    rcases List.mem_append.mp hmem with hin1 | hin2
    · exact h5 _ hin1
    · exfalso
      rcases List.mem_cons.mp hin2 with heq | hin2
      · have he1 : a' = phf.a := congrArg Prod.fst heq
        have he2 : r' = phf.r := congrArg Prod.snd heq
        rcases hlt' with hlt' | ⟨_, hlt'⟩ <;> omega
      · have hsorted := phfCandidates_sorted
        rw [hl] at hsorted
        have hc := (List.pairwise_cons.mp (List.pairwise_append.mp hsorted).2.1).1
          _ hin2
        have hc' : phf.a < a' ∨ (phf.a = a' ∧ phf.r < r') := hc
        rcases hc' with hc' | ⟨hceq, hcr⟩ <;> rcases hlt' with hlt' | ⟨hleq, hlr⟩ <;>
          omega
  · intro res₂ phf₂ h₂
    rw [h] at h₂
    simp only [Option.some.injEq, Prod.mk.injEq] at h₂
    exact ⟨h₂.1.symm, h₂.2.symm⟩

/-- Witness for C6: on a concrete singleton tuple `gen_phf` returns the very
first candidate `(a, r) = (1, 0)`, which indeed succeeds. -/
theorem gen_phf_first_row_major_witness :
    gen_res_a_r_phf [sampleNodeA] 1 1 0 37 = [sampleNodeA] ∧
    (1:Nat) ≤ 1 ∧ (1:Nat) < PHF_A_LIMIT ∧ (0:Nat) < PHF_R_LIMIT :=
  have happ := gen_phf_first_row_major [sampleNodeA] [sampleNodeA] ⟨1, 0, 37, 1⟩
    (by decide)
  ⟨happ.2.2.1.1, happ.2.1.1, happ.2.1.2.1, happ.2.1.2.2⟩

/-- C1: when `gen_phf` succeeds on a tuple of nodes with pairwise distinct
uids, the returned parameters make the hash
`((uid*a) XOR ((uid*a) >> r)) % prime % n` injective over the node uids, with
`n` the number of nodes and `prime` the size-class prime; every node sits at
slot `h(uid)` of the returned tuple; and the `NodeSet` built from that tuple
with those parameters satisfies the round trip `NodeSet[identity(x)] == x`
for every node `x`. -/
theorem gen_phf_injective_round_trip (group res : List IRNode) (phf : ResultPHF)
    (_hdist : group.Pairwise fun x y => x.uid ≠ y.uid)
    (h : gen_phf group = some (res, phf)) :
    phf.n = group.length ∧ phf.prime = get_phf_prime group.length ∧
    (∀ x ∈ group, ∀ y ∈ group,
      get_hash_with_args x.uid phf.a phf.r phf.n phf.prime =
        get_hash_with_args y.uid phf.a phf.r phf.n phf.prime → x.uid = y.uid) ∧
    (∀ x ∈ group,
      res[get_hash_with_args x.uid phf.a phf.r phf.n phf.prime]? = some x) ∧
    (∀ x ∈ group, NodeSet.getItemHash ⟨res, some phf⟩ x.irhash = some x) := by
  obtain ⟨h1, h2, l₁, l₂, hl, h3, h4, h5⟩ := gen_phf_loop_some h
  have hplace := gen_res_places h3 h4
  have hform : ∀ u : Nat,
      get_hash_with_args u phf.a phf.r phf.n phf.prime =
        get_hash_with_args u phf.a phf.r group.length
          (get_phf_prime group.length) := by
    intro u
    rw [h1, h2]
  have hplace' : ∀ x ∈ group,
      res[get_hash_with_args x.uid phf.a phf.r phf.n phf.prime]? = some x := by
    intro x hx
    rw [hform]
    exact hplace x hx
  refine ⟨h2, h1, ?_, hplace', ?_⟩
  · intro x hx y hy heq
    have hx' := hplace' x hx
    rw [heq] at hx'
    have hy' := hplace' y hy
    rw [hx'] at hy'
    cases hy'
    rfl
  · intro x hx
    show res[get_hash x.irhash.uid phf]? = some x
    have hgu : get_hash x.irhash.uid phf =
        get_hash_with_args x.uid phf.a phf.r phf.n phf.prime := rfl
    rw [hgu]
    exact hplace' x hx

/-- Witness for C1: the concrete two-node tuple round-trips through the
perfect-hash index. -/
theorem gen_phf_injective_round_trip_witness :
    NodeSet.getItemHash ⟨[sampleNodeB, sampleNodeA], some ⟨1, 1, 37, 2⟩⟩
      sampleNodeA.irhash = some sampleNodeA :=
  (gen_phf_injective_round_trip [sampleNodeA, sampleNodeB]
      [sampleNodeB, sampleNodeA] ⟨1, 1, 37, 2⟩ (by decide) (by decide)).2.2.2.2
    sampleNodeA (by simp)

/-- Witness for C5: a second `build()` on a concrete successfully built
two-node graph raises and leaves the frozen state untouched; `build()` on
the fresh empty graph raises the same state error. -/
theorem build_state_errors_witness :
    IRGraph.build (IRGraph.build sampleGraphAB).1 =
      ((IRGraph.build sampleGraphAB).1,
        some "ir graph is already built or no nodes were found") ∧
    IRGraph.build IRGraph.initial =
      (IRGraph.initial, some "ir graph is already built or no nodes were found") :=
  ⟨(build_state_errors (IRGraph.build sampleGraphAB).1).1 (by decide),
   (build_state_errors IRGraph.initial).2 rfl⟩

end HhatCore

namespace HhatCore

/-- C2 (counterexample to the claim as universally stated): a graph in the
building state with added nodes whose reference tables all resolve — here
the same unit added twice, which `add_node` permits — on which `build()`
nevertheless raises: the PHF search can never separate two nodes with equal
uids, so it exhausts its whole candidate space and fails before the
reference check is ever reached. -/
theorem build_refs_counterexample :
    sampleGraphAA.is_built = false ∧ sampleGraphAA.tmp_nodes ≠ [] ∧
    refsResolve sampleGraphAA ∧
    IRGraph.build sampleGraphAA =
      (sampleGraphAA,
        some "could not find satisfactory parameter values to generate the PHF") := by
  refine ⟨rfl, by decide, by decide, ?_⟩
  have hdup : gen_phf sampleGraphAA.tmp_nodes = none := gen_phf_duplicate sampleNodeA
  unfold IRGraph.build
  rw [if_pos ⟨rfl, by decide⟩, hdup]

/-- C2 (amended): for a graph in the building state with at least one added
node, on which the PHF search succeeds, `build()` succeeds and sets
`is_built` exactly when every identity in every node's type- and
function-reference tables resolves to an added node; otherwise it raises the
missing-nodes error (keeping the already-frozen set, as the Python mutations
do). -/
theorem build_validates_refs (g : IRGraph) (pr : List IRNode × ResultPHF)
    (h1 : g.is_built = false) (h2 : g.tmp_nodes ≠ [])
    (h3 : gen_phf g.tmp_nodes = some pr) :
    (refsResolve g →
      IRGraph.build g =
        ({ g with nodes := ⟨pr.1, some pr.2⟩, tmp_nodes := ([] : List IRNode), is_built := true }, none)) ∧
    (¬ refsResolve g →
      IRGraph.build g =
        ({ g with nodes := ⟨pr.1, some pr.2⟩, tmp_nodes := [] },
          some "missing nodes to build the ir graph")) := by
  have hcond : g.is_built = false ∧ 0 < g.tmp_nodes.length :=
    ⟨h1, List.length_pos.mpr h2⟩
  have h3' : gen_phf_loop g.tmp_nodes g.tmp_nodes.length
      (get_phf_prime g.tmp_nodes.length) phfCandidates = some (pr.1, pr.2) := h3
  obtain ⟨_, _, l₁, l₂, hl, hres, hne, _⟩ := gen_phf_loop_some h3'
  have hmem : ∀ z : IRNode, z ∈ pr.1 ↔ z ∈ g.tmp_nodes := gen_res_mem hres hne
  constructor
  · intro hrefs
    unfold IRGraph.build
    rw [if_pos hcond, h3]
    simp only []
    rw [if_pos ((check_refs_iff hmem).mpr hrefs)]
  · intro hrefs
    unfold IRGraph.build
    rw [if_pos hcond, h3]
    simp only []
    rw [if_neg (fun hc => hrefs ((check_refs_iff hmem).mp hc))]

/-- Witness for C2: the resolvable two-node graph builds successfully and
sets `is_built`; the graph with a dangling reference raises. -/
theorem build_validates_refs_witness :
    IRGraph.build sampleGraphAB =
      ({ sampleGraphAB with
         nodes := ⟨[sampleNodeB, sampleNodeA], some ⟨1, 1, 37, 2⟩⟩,
         tmp_nodes := [], is_built := true }, none) ∧
    IRGraph.build sampleGraphAC =
      ({ sampleGraphAC with
         nodes := ⟨[sampleNodeC, sampleNodeA], some ⟨1, 1, 37, 2⟩⟩,
         tmp_nodes := [] }, some "missing nodes to build the ir graph") :=
  ⟨(build_validates_refs sampleGraphAB ([sampleNodeB, sampleNodeA], ⟨1, 1, 37, 2⟩)
      rfl (by decide) (by decide)).1 (by decide),
   (build_validates_refs sampleGraphAC ([sampleNodeC, sampleNodeA], ⟨1, 1, 37, 2⟩)
      rfl (by decide) (by decide)).2 (by decide)⟩

/-- C9: after a successful `build()`, the graph containment test returns
`False` for every query — symbols, function headers and paths alike,
including the paths of nodes present in the frozen set — because it scans
only the temporary building list, which `build()` has emptied. -/
theorem built_graph_contains_nothing (g g2 : IRGraph)
    (hbuild : IRGraph.build g = (g2, none)) :
    ∀ item : ContainQuery, IRGraph.containsItem g2 item = Except.ok false := by
  obtain ⟨pr, _, _, hshape⟩ := build_success_shape hbuild
  have htmp : g2.tmp_nodes = [] := by rw [hshape]
  intro item
  unfold IRGraph.containsItem
  cases item <;> simp [scanContains, htmp]

/-- Witness for C9: the path of a node present in the frozen set of the
concrete built graph is nevertheless not contained. -/
theorem built_graph_contains_nothing_witness :
    IRGraph.containsItem (IRGraph.build sampleGraphAB).1
      (ContainQuery.path "src/a") = Except.ok false :=
  built_graph_contains_nothing sampleGraphAB (IRGraph.build sampleGraphAB).1
    (by decide) (ContainQuery.path "src/a")

/-- C4: `get_fns` returns the stored overload signatures of the name in the
unit at the path, in stored (insertion) order, identically before `build()`
(scanning the building list) and after a successful `build()` of the same
nodes (scanning the frozen set — a successful build forces pairwise distinct
module paths, so the unit at a path is unique); it errors when no scanned
unit at the path yields an overload dictionary for the name; and
`FnTable.add` maintains insertion order of the overload keys (an existing
signature is updated in place, a new one is appended at the end). -/
theorem get_fns_pre_post_build (g g2 : IRGraph)
    (hbuild : IRGraph.build g = (g2, none)) :
    (∀ (p : ModPath) (item : Symbol),
      IRGraph.get_fns g p item = IRGraph.get_fns g2 p item) ∧
    (∀ (item : Symbol) (m : IRNode) (fns : List (FnHeader × FnDef)),
      m ∈ g.tmp_nodes →
      FnTable.getSym m.ir.module.symbol_table.fn item = some fns →
      IRGraph.get_fns g m.path item = Except.ok (fns.map Prod.fst)) ∧
    (∀ (p : ModPath) (item : Symbol),
      (∀ n ∈ g.tmp_nodes, n.path = p →
        FnTable.getSym n.ir.module.symbol_table.fn item = none) →
      IRGraph.get_fns g p item =
        Except.error "item not found in ir node at module path") ∧
    (∀ (t : FnTable) (hd : FnHeader) (d : FnDef),
      fnKeys (FnTable.add t hd d) hd.name =
        if hd ∈ fnKeys t hd.name then fnKeys t hd.name
        else fnKeys t hd.name ++ [hd]) := by
  obtain ⟨pr, hphf, hpos, hshape⟩ := build_success_shape hbuild
  have htmpne : g.tmp_nodes ≠ [] := by
    intro he
    rw [he] at hpos
    simp at hpos
  have hscan_g : g.scanList = g.tmp_nodes := by
    unfold IRGraph.scanList
    rw [if_pos htmpne]
  have hscan_g2 : g2.scanList = pr.1 := by
    rw [hshape]
    unfold IRGraph.scanList
    simp
  have h3' : gen_phf_loop g.tmp_nodes g.tmp_nodes.length
      (get_phf_prime g.tmp_nodes.length) phfCandidates = some (pr.1, pr.2) := hphf
  obtain ⟨_, _, l₁, l₂, hl, hres, hne, _⟩ := gen_phf_loop_some h3'
  have hmem : ∀ z : IRNode, z ∈ pr.1 ↔ z ∈ g.tmp_nodes := gen_res_mem hres hne
  have hpaths : g.tmp_nodes.Pairwise fun x y => x.path ≠ y.path :=
    (gen_res_pairwise_uid hres hne).imp fun hxy hpeq =>
      hxy (congrArg pathHash hpeq)
  have huniq : ∀ (p : ModPath) (m : IRNode), m ∈ g.tmp_nodes → m.path = p →
      ∀ n ∈ g.tmp_nodes, n.path = p → n = m := by
    intro p m hm hmp n hn hnp
    by_contra hnm
    exact absurd (hnp.trans hmp.symm)
      (hpaths.forall (fun x y hxy => Ne.symm hxy) hn hm hnm)
  refine ⟨?_, ?_, ?_, fun t hd d => fnKeys_add t hd d⟩
  · intro p item
    unfold IRGraph.get_fns
    rw [hscan_g, hscan_g2]
    by_cases hex : ∃ m ∈ g.tmp_nodes, m.path = p
    · obtain ⟨m, hm, hmp⟩ := hex
      rw [getFnsScan_unique hmp hm (huniq p m hm hmp),
          getFnsScan_unique hmp ((hmem m).mpr hm)
            (fun n hn hnp => huniq p m hm hmp n ((hmem n).mp hn) hnp)]
    · push_neg at hex
      rw [getFnsScan_no_entry (fun n hn hnp => absurd hnp (hex n hn)),
          getFnsScan_no_entry
            (fun n hn hnp => absurd hnp (hex n ((hmem n).mp hn)))]
  · intro item m fns hm hget
    unfold IRGraph.get_fns
    rw [hscan_g, getFnsScan_unique rfl hm (huniq m.path m hm rfl), hget]
  · intro p item hnone
    unfold IRGraph.get_fns
    rw [hscan_g]
    exact getFnsScan_no_entry hnone

/-- Witness for C4: the concrete graph returns the two stored overloads of
`add` in insertion order, identically before and after `build()`. -/
theorem get_fns_pre_post_build_witness :
    IRGraph.get_fns sampleGraphAB "src/a" "add" =
      IRGraph.get_fns (IRGraph.build sampleGraphAB).1 "src/a" "add" ∧
    IRGraph.get_fns sampleGraphAB "src/a" "add" =
      Except.ok [hdrAdd, hdrAdd1] :=
  have happ := get_fns_pre_post_build sampleGraphAB
    (IRGraph.build sampleGraphAB).1 (by decide)
  ⟨happ.1 "src/a" "add",
   happ.2.1 "add" sampleNodeA [(hdrAdd, ⟨0⟩), (hdrAdd1, ⟨1⟩)]
     (by decide) (by decide)⟩

end HhatCore
